import Mathlib

/-!
Shallow embedding of TSTS.py, a time-signal-to-spectrum tool:
range selection, windowing, zero-padding, FFT-based spectrum computation,
an interactive session state machine, and spectrum persistence.

Modelling conventions:
* Python floats are embedded as exact rationals where the computation is
  rational, and as reals where transcendental functions occur (window
  tapers, the discrete Fourier transform itself).
* numpy arrays become lists; a two-column array becomes a list of pairs or
  a pair of column lists.
* Fallible code (a Python IndexError) becomes an `Option` result.
-/

set_option maxRecDepth 4000

namespace TSTS

/-- Selection of the elements of a list by a boolean mask, as in the numpy
expression `xs[mask]`.  Extra mask entries or extra list entries are
ignored (in the source both always have equal length). -/
def applyMask {α : Type} : List Bool → List α → List α
  | b :: bs, x :: xs => if b then x :: applyMask bs xs else applyMask bs xs
  | _, _ => []

/-- Python builtin `min` over a list, with default 0 for the empty list
(the source only applies it to non-empty arrays). -/
def listMin : List ℚ → ℚ
  | [] => 0
  | x :: xs => xs.foldl min x

/-- Python builtin `max` over a list, with default 0 for the empty list
(the source only applies it to non-empty arrays). -/
def listMax : List ℚ → ℚ
  | [] => 0
  | x :: xs => xs.foldl max x

/-- The least exponent m with n ≤ 2 ^ m, modelling the exact value of
`np.ceil(np.log2(n))` for n ≥ 1.  Implemented as a bounded search so that
it evaluates by kernel reduction (n ≤ 2 ^ n always holds). -/
def ceilLog2 (n : ℕ) : ℕ :=
  (((List.range (n + 1)).find? (fun m => n ≤ 2 ^ m)).getD 0)

/-- The values appended by `np.pad(a, (0, w), "linear_ramp",
end_values=(0, e))`: a linear ramp of w samples from the edge value v
(excluded) to e (included). -/
def linearRamp (v e : ℚ) (w : ℕ) : List ℚ :=
  (List.range w).map (fun i : ℕ => v + (e - v) * ((i : ℚ) + 1) / (w : ℚ))

/-- `zeropadding(xs, ys)` from TSTS.py (lines 25-30): extend xs by a linear
ramp with step `dt = xs[1] - xs[0]` (0 if fewer than two samples) and ys by
zeros, up to the next power-of-two length.  On an empty xs the source
raises an IndexError when evaluating `xs[-1]`, modelled by `none`. -/
def zeropadding (xs ys : List ℚ) : Option (List ℚ × List ℚ) :=
  if xs = [] then none
  else
    let num_add := 2 ^ ceilLog2 xs.length - xs.length
    let dt : ℚ := if 1 < xs.length then xs.getD 1 0 - xs.getD 0 0 else 0
    some (xs ++ linearRamp (xs.getLastD 0) (xs.getLastD 0 + num_add * dt) num_add,
          ys ++ List.replicate num_add 0)

/-- `np.hanning(M)`: ones for M = 1, else `0.5 + 0.5*cos(pi*n/(M-1))` over
`n = arange(1-M, M, 2)`, i.e. n = 2k - (M-1) at position k. -/
noncomputable def hanningW (M : ℕ) : List ℝ :=
  if M = 1 then [1]
  else (List.range M).map (fun k : ℕ =>
    0.5 + 0.5 * Real.cos (Real.pi * (2 * (k : ℝ) - ((M : ℝ) - 1)) / ((M : ℝ) - 1)))

/-- `np.blackman(M)`: ones for M = 1, else
`0.42 + 0.5*cos(pi*n/(M-1)) + 0.08*cos(2*pi*n/(M-1))` over the same n. -/
noncomputable def blackmanW (M : ℕ) : List ℝ :=
  if M = 1 then [1]
  else (List.range M).map (fun k : ℕ =>
    0.42 + 0.5 * Real.cos (Real.pi * (2 * (k : ℝ) - ((M : ℝ) - 1)) / ((M : ℝ) - 1))
      + 0.08 * Real.cos (2 * (Real.pi * (2 * (k : ℝ) - ((M : ℝ) - 1)) / ((M : ℝ) - 1))))

/-- `np.hamming(M)`: ones for M = 1, else `0.54 + 0.46*cos(pi*n/(M-1))`
over the same n. -/
noncomputable def hammingW (M : ℕ) : List ℝ :=
  if M = 1 then [1]
  else (List.range M).map (fun k : ℕ =>
    0.54 + 0.46 * Real.cos (Real.pi * (2 * (k : ℝ) - ((M : ℝ) - 1)) / ((M : ℝ) - 1)))

/-- `np.bartlett(M)`: ones for M = 1, else the triangle
`where(n <= 0, 1 + n/(M-1), 1 - n/(M-1))` over the same n. -/
noncomputable def bartlettW (M : ℕ) : List ℝ :=
  if M = 1 then [1]
  else (List.range M).map (fun k : ℕ =>
    if 2 * (k : ℤ) - ((M : ℤ) - 1) ≤ 0
    then 1 + ((2 * (k : ℤ) - ((M : ℤ) - 1) : ℤ) : ℝ) / ((M : ℝ) - 1)
    else 1 - ((2 * (k : ℤ) - ((M : ℤ) - 1) : ℤ) : ℝ) / ((M : ℝ) - 1))

/-- `calc_window(windowtype, ys)` from TSTS.py (lines 41-52): dictionary
lookup of the four named tapers applied to `len(ys)`, any other name
falling back to `np.ones(len(ys))`. -/
noncomputable def calc_window (windowtype : String) (ys : List ℚ) : List ℝ :=
  if windowtype = "hanning" then hanningW ys.length
  else if windowtype = "blackman" then blackmanW ys.length
  else if windowtype = "hamming" then hammingW ys.length
  else if windowtype = "bartlett" then bartlettW ys.length
  else List.replicate ys.length 1

/-- The raw integer frequency bins of `np.fft.fftfreq(n)`:
`arange(0, (n-1)//2 + 1)` followed by `arange(-(n//2), 0)`. -/
def fftfreqIdx (n : ℕ) : List ℤ :=
  (List.range ((n - 1) / 2 + 1)).map (fun k : ℕ => (k : ℤ))
    ++ (List.range (n / 2)).map (fun k : ℕ => (k : ℤ) - (n / 2 : ℕ))

/-- `np.fft.fftfreq(n, d)`: the raw bins scaled by `1/(n*d)`.  (The source
only calls this with n ≥ 1, inside the `if N` branch; the n = 0 guard is
unreachable there.) -/
def fftfreq (n : ℕ) (d : ℚ) : List ℚ :=
  if n = 0 then []
  else (fftfreqIdx n).map (fun m : ℤ => (m : ℚ) * (1 / ((n : ℚ) * d)))

/-- `np.fft.fft(v)` followed by taking absolute values: the standard
forward discrete Fourier transform magnitudes
`|Σ_j v_j exp(-2 pi i j k / n)|` for k < n. -/
noncomputable def dftAbs (v : List ℝ) : List ℝ :=
  (List.range v.length).map (fun k : ℕ =>
    Complex.abs (∑ j in Finset.range v.length,
      (v.getD j 0 : ℂ) *
        Complex.exp (-2 * Real.pi * Complex.I * (j : ℂ) * (k : ℂ) / (v.length : ℂ))))

/-- The boolean selection mask `(time_xs > fft_min) & (time_xs < fft_max)`
from TSTS.py line 61. -/
def fftMask (times : List ℚ) (fft_min fft_max : ℚ) : List Bool :=
  times.map (fun t => decide (fft_min < t) && decide (t < fft_max))

/-- `calc_fft(data, fft_range, windowtype, zeropad)` from TSTS.py
(lines 54-82).  The dataset is `none` when no file was selected, else the
list of (time, amplitude) rows; the result is `none` when `zeropadding`
raises, else the quadruple `(time_xs, time_ys, spec_xs, spec_ys)`. -/
noncomputable def calc_fft (data : Option (List (ℚ × ℚ))) (fft_range : ℚ × ℚ)
    (windowtype : String) (zeropad : Bool) :
    Option (List ℚ × List ℚ × List ℚ × List ℝ) :=
  match data with
  | none => some ([], [], [], [])
  | some rows =>
    let time_xs := rows.map Prod.fst
    let time_ys := rows.map Prod.snd
    let mask := fftMask time_xs fft_range.1 fft_range.2
    let xs0 := applyMask mask time_xs
    let ys0 := applyMask mask time_ys
    match (if zeropad then zeropadding xs0 ys0 else some (xs0, ys0)) with
    | none => none
    | some (xs, ys) =>
      let window := calc_window windowtype ys
      let N := xs.length
      if N ≠ 0 then
        let spec_xs_full := fftfreq N ((listMin xs - listMax xs) / (N : ℚ))
        let spec_ys_full := dftAbs (List.zipWith (fun a w => (a : ℝ) * w) ys window)
        let mask2 := spec_xs_full.map (fun x => decide (0 < x))
        some (time_xs, time_ys, applyMask mask2 spec_xs_full, applyMask mask2 spec_ys_full)
      else some (time_xs, time_ys, [], [])

/-! ### Basic lemmas about the mask, min and max helpers -/

theorem applyMask_self {α : Type} (p : α → Bool) (l : List α) :
    applyMask (l.map p) l = l.filter p := by
  induction l with
  | nil => rfl
  | cons x xs ih =>
    cases hx : p x <;> simp [applyMask, List.filter_cons, hx, ih]

theorem applyMask_map {α β γ : Type} (p : β → Bool) (f : α → β) (g : α → γ) (l : List α) :
    applyMask (l.map (fun a => p (f a))) (l.map g)
      = (l.filter (fun a => p (f a))).map g := by
  induction l with
  | nil => rfl
  | cons x xs ih =>
    cases hx : p (f x) <;> simp [applyMask, List.filter_cons, hx, ih]

theorem applyMask_all_false {α : Type} (m : List Bool) (l : List α)
    (h : ∀ b ∈ m, b = false) : applyMask m l = [] := by
  induction m generalizing l with
  | nil => cases l <;> rfl
  | cons b bs ih =>
    cases l with
    | nil => rfl
    | cons x xs =>
      have hb : b = false := h b (List.mem_cons_self ..)
      subst hb
      simpa [applyMask] using ih xs (fun b hb => h b (List.mem_cons_of_mem _ hb))

theorem foldl_min_le_foldl_max (l : List ℚ) :
    ∀ a b : ℚ, a ≤ b → l.foldl min a ≤ l.foldl max b := by
  induction l with
  | nil => intro a b h; exact h
  | cons x xs ih =>
    intro a b h
    exact ih _ _ (le_trans (min_le_left a x) (le_trans h (le_max_left b x)))

theorem listMin_le_listMax (l : List ℚ) : listMin l ≤ listMax l := by
  cases l with
  | nil => exact le_refl 0
  | cons x xs => exact foldl_min_le_foldl_max xs x x (le_refl x)

/-! ### The next-power-of-two search -/

theorem find?_range'_least (p : ℕ → Bool) :
    ∀ k s a : ℕ, (List.range' s k).find? p = some a →
      p a = true ∧ s ≤ a ∧ ∀ m, s ≤ m → m < a → p m = false := by
  intro k
  induction k with
  | zero => intro s a h; simp [List.range'] at h
  | succ k ih =>
    intro s a h
    have hr : List.range' s (k + 1) = s :: List.range' (s + 1) k := rfl
    rw [hr, List.find?_cons] at h
    cases hps : p s with
    | true =>
      rw [hps] at h
      cases h
      exact ⟨hps, le_refl s, fun m h1 h2 => absurd h1 (by omega)⟩
    | false =>
      rw [hps] at h
      obtain ⟨hpa, hsa, hmin⟩ := ih (s + 1) a h
      refine ⟨hpa, by omega, fun m h1 h2 => ?_⟩
      rcases Nat.eq_or_lt_of_le h1 with heq | hlt
      · exact heq ▸ hps
      · exact hmin m hlt h2

theorem ceilLog2_spec (n : ℕ) :
    n ≤ 2 ^ ceilLog2 n ∧ ∀ m, n ≤ 2 ^ m → ceilLog2 n ≤ m := by
  unfold ceilLog2
  cases hf : (List.range (n + 1)).find? (fun m => decide (n ≤ 2 ^ m)) with
  | none =>
    exfalso
    rw [List.find?_eq_none] at hf
    exact hf n (List.mem_range.mpr (Nat.lt_succ_self n))
      (by simp [(Nat.lt_two_pow n).le])
  | some a =>
    have := find?_range'_least (fun m => decide (n ≤ 2 ^ m)) (n + 1) 0 a
      (by rw [← List.range_eq_range']; exact hf)
    obtain ⟨hpa, -, hmin⟩ := this
    constructor
    · simpa using hpa
    · intro m hm
      by_contra hlt
      push_neg at hlt
      have hm0 : m < a := by simpa using hlt
      have := hmin m (Nat.zero_le m) hm0
      simp [hm] at this

/-! ### The positive-frequency part of fftfreq -/

theorem pos_of_mem_filter_pos {l : List ℚ} {x : ℚ}
    (hx : x ∈ l.filter (fun x => decide (0 < x))) : 0 < x :=
  of_decide_eq_true (List.mem_filter.mp hx).2

theorem fftfreq_filter_pos_pairwise (n : ℕ) (d : ℚ) (hd : d ≤ 0) :
    List.Pairwise (fun a b : ℚ => a > b)
      ((fftfreq n d).filter (fun x => decide (0 < x))) := by
  rcases Nat.eq_zero_or_pos n with hn | hn
  · subst hn; simp [fftfreq]
  · have hn0 : n ≠ 0 := Nat.pos_iff_ne_zero.mp hn
    rw [fftfreq, if_neg hn0]
    rcases lt_or_eq_of_le hd with hdlt | hdeq
    · have hnQ : (0 : ℚ) < (n : ℚ) := by exact_mod_cast hn
      have hval : (1 : ℚ) / ((n : ℚ) * d) < 0 :=
        one_div_neg.mpr (mul_neg_of_pos_of_neg hnQ hdlt)
      rw [fftfreqIdx, List.map_append, List.filter_append]
      have h1 : (((List.range ((n - 1) / 2 + 1)).map (fun k : ℕ => (k : ℤ))).map
          (fun m : ℤ => (m : ℚ) * (1 / ((n : ℚ) * d)))).filter (fun x => decide (0 < x)) = [] := by
        rw [List.filter_eq_nil_iff]
        intro x hx
        simp only [List.map_map, List.mem_map, Function.comp] at hx
        obtain ⟨k, -, rfl⟩ := hx
        have hle : ((k : ℤ) : ℚ) * (1 / ((n : ℚ) * d)) ≤ 0 :=
          mul_nonpos_of_nonneg_of_nonpos (by positivity) hval.le
        simpa using not_lt.mpr hle
      have h2 : (((List.range (n / 2)).map (fun k : ℕ => (k : ℤ) - (n / 2 : ℕ))).map
          (fun m : ℤ => (m : ℚ) * (1 / ((n : ℚ) * d)))).filter (fun x => decide (0 < x))
          = ((List.range (n / 2)).map (fun k : ℕ => (k : ℤ) - (n / 2 : ℕ))).map
            (fun m : ℤ => (m : ℚ) * (1 / ((n : ℚ) * d))) := by
        rw [List.filter_eq_self]
        intro x hx
        simp only [List.map_map, List.mem_map, Function.comp] at hx
        obtain ⟨k, hk, rfl⟩ := hx
        have hkn : k < n / 2 := List.mem_range.mp hk
        have hneg : (((k : ℤ) - (n / 2 : ℕ) : ℤ) : ℚ) < 0 := by
          have : (k : ℤ) - (n / 2 : ℕ) < 0 := by omega
          exact_mod_cast this
        simpa using mul_pos_of_neg_of_neg hneg hval
      rw [h1, h2, List.nil_append, List.map_map, List.pairwise_map]
      refine (List.pairwise_lt_range (n / 2)).imp ?_
      intro a b hab
      have hcast : (((a : ℤ) - (n / 2 : ℕ) : ℤ) : ℚ) < (((b : ℤ) - (n / 2 : ℕ) : ℤ) : ℚ) := by
        have : (a : ℤ) - (n / 2 : ℕ) < (b : ℤ) - (n / 2 : ℕ) := by omega
        exact_mod_cast this
      exact mul_lt_mul_of_neg_right hcast hval
    · subst hdeq
      have h0 : ((fftfreqIdx n).map (fun m : ℤ => (m : ℚ) * (1 / ((n : ℚ) * 0)))).filter
          (fun x => decide (0 < x)) = [] := by
        rw [List.filter_eq_nil_iff]
        intro x hx
        simp only [List.mem_map] at hx
        obtain ⟨m, -, rfl⟩ := hx
        simp
      rw [h0]
      exact List.Pairwise.nil

/-! ### Shape of the spectrum output of calc_fft -/

theorem calc_fft_spec_xs_shape (rows : List (ℚ × ℚ)) (fr : ℚ × ℚ) (wt : String) (zp : Bool)
    (spec_xs : List ℚ)
    (h : (calc_fft (some rows) fr wt zp).map (fun r => r.2.2.1) = some spec_xs) :
    spec_xs = [] ∨ ∃ xs : List ℚ, xs ≠ [] ∧
      spec_xs = (fftfreq xs.length ((listMin xs - listMax xs) / (xs.length : ℚ))).filter
        (fun x => decide (0 < x)) := by
  simp only [calc_fft] at h
  split at h
  · simp at h
  · rename_i xs ys heq
    split at h
    · rename_i hN
      simp only [Option.map_some', Option.some.injEq] at h
      right
      refine ⟨xs, fun hnil => hN (by simp [hnil]), ?_⟩
      rw [← h, applyMask_self]
    · simp only [Option.map_some', Option.some.injEq] at h
      left
      exact h.symm

/-- The five-sample dataset of the specification's own test scenario:
times 0..4, amplitudes 0, 1, 0, -1, 0. -/
def sampleData : List (ℚ × ℚ) := [(0, 0), (1, 1), (2, 0), (3, -1), (4, 0)]

/-- C1, counterexample: on the specification's own scenario (5 samples,
selection (-1,5), boxcar, no zeropad) the spectrum frequencies are
[1/2, 1/4] — strictly positive but NOT strictly increasing in output
order. -/
theorem spec_freqs_not_increasing :
    (calc_fft (some sampleData) ((-1 : ℚ), 5) ("boxcar") false).map (fun r => r.2.2.1)
      = some [(1 : ℚ) / 2, 1 / 4]
    ∧ ¬ List.Pairwise (fun a b : ℚ => a < b) [(1 : ℚ) / 2, 1 / 4] := by
  constructor
  · with_unfolding_all decide
  · intro hp
    have h12 := (List.pairwise_cons.mp hp).1 ((1 : ℚ) / 4) (by simp)
    norm_num at h12

/-- C1, amended: for every loaded dataset with strictly increasing sample
times and every selection range, window kind and zeropad flag, the
spectrum frequencies output by calc_fft are all strictly positive and
strictly DECREASING in output order (fftfreq is scaled by the negative
quantity (min-max)/N, so the kept bins are the reversed negative ones). -/
theorem spec_freqs_positive_and_decreasing (rows : List (ℚ × ℚ)) (fr : ℚ × ℚ)
    (wt : String) (zp : Bool)
    (hsorted : List.Pairwise (fun a b : ℚ => a < b) (rows.map Prod.fst)) :
    ∀ spec_xs, (calc_fft (some rows) fr wt zp).map (fun r => r.2.2.1) = some spec_xs →
      (∀ x ∈ spec_xs, 0 < x) ∧ List.Pairwise (fun a b : ℚ => a > b) spec_xs := by
  intro spec_xs h
  rcases calc_fft_spec_xs_shape rows fr wt zp spec_xs h with hnil | ⟨xs, hxs, hfil⟩
  · subst hnil; exact ⟨by simp, List.Pairwise.nil⟩
  · subst hfil
    refine ⟨fun x hx => pos_of_mem_filter_pos hx, ?_⟩
    apply fftfreq_filter_pos_pairwise
    have h1 : listMin xs - listMax xs ≤ 0 := sub_nonpos.mpr (listMin_le_listMax xs)
    have h2 : (0 : ℚ) ≤ (xs.length : ℚ) := by positivity
    exact div_nonpos_of_nonpos_of_nonneg h1 h2

/-- C1, witness: the amended theorem applied to the concrete scenario. -/
theorem spec_freqs_positive_and_decreasing_witness :
    (∀ x ∈ [(1 : ℚ) / 2, 1 / 4], 0 < x)
    ∧ List.Pairwise (fun a b : ℚ => a > b) [(1 : ℚ) / 2, 1 / 4] :=
  spec_freqs_positive_and_decreasing sampleData ((-1 : ℚ), 5) ("boxcar") false
    (by with_unfolding_all decide) [(1 : ℚ) / 2, 1 / 4] (by with_unfolding_all decide)

/-- C2, counterexample: with the zeropad flag set and a selection range
whose filtered series is empty, calc_fft raises (zeropadding evaluates
xs[-1] on an empty array) instead of returning empty outputs. -/
theorem calc_fft_zeropad_empty_raises :
    calc_fft (some sampleData) ((10 : ℚ), 20) ("hanning") true = none := by
  with_unfolding_all rfl

theorem calc_fft_filtered_empty_eq (rows : List (ℚ × ℚ)) (fr : ℚ × ℚ) (wt : String)
    (hempty : applyMask (fftMask (rows.map Prod.fst) fr.1 fr.2) (rows.map Prod.fst) = []) :
    calc_fft (some rows) fr wt false
      = some (rows.map Prod.fst, rows.map Prod.snd, [], []) := by
  simp only [calc_fft, Bool.false_eq_true, if_false, hempty]
  simp

/-- C2, amended: for every non-absent dataset, every selection range whose
filtered series is empty and every window kind, calc_fft with the zeropad
flag FALSE returns empty spectrum outputs rather than raising (with
zeropad true the empty filtered series makes zeropadding raise). -/
theorem calc_fft_empty_filtered_no_zeropad (rows : List (ℚ × ℚ)) (fr : ℚ × ℚ) (wt : String)
    (hempty : applyMask (fftMask (rows.map Prod.fst) fr.1 fr.2) (rows.map Prod.fst) = []) :
    calc_fft (some rows) fr wt false
      = some (rows.map Prod.fst, rows.map Prod.snd, [], []) :=
  calc_fft_filtered_empty_eq rows fr wt hempty

/-- C2, witness: the amended theorem applied to the scenario dataset and
the out-of-range selection (10, 20). -/
theorem calc_fft_empty_filtered_no_zeropad_witness :
    calc_fft (some sampleData) ((10 : ℚ), 20) ("hamming") false
      = some (sampleData.map Prod.fst, sampleData.map Prod.snd, [], []) :=
  calc_fft_empty_filtered_no_zeropad sampleData ((10 : ℚ), 20) ("hamming")
    (by with_unfolding_all decide)

/-- C4, counterexample: the time-domain sequences returned by calc_fft are
the FULL data columns, not the selection-filtered samples: with selection
(1/2, 3/2) only time 1 passes the filter, yet the returned time xs are
[0, 1, 2, 3, 4]. -/
theorem calc_fft_time_outputs_not_filtered :
    (calc_fft (some sampleData) ((1 : ℚ) / 2, 3 / 2) ("boxcar") false).map (fun r => r.1)
      = some [(0 : ℚ), 1, 2, 3, 4]
    ∧ applyMask (fftMask (sampleData.map Prod.fst) ((1 : ℚ) / 2) ((3 : ℚ) / 2))
        (sampleData.map Prod.fst) = [(1 : ℚ)]
    ∧ [(0 : ℚ), 1, 2, 3, 4] ≠ [(1 : ℚ)] := by
  refine ⟨?_, ?_, ?_⟩ <;> with_unfolding_all decide

/-- C4, amended: for every non-absent dataset, selection range, window
kind and zeropad flag, the time-domain sequences returned by calc_fft are
the full unfiltered time series (unwindowed and unpadded), not the
filtered samples. -/
theorem calc_fft_time_outputs_full (rows : List (ℚ × ℚ)) (fr : ℚ × ℚ)
    (wt : String) (zp : Bool) :
    ∀ p, (calc_fft (some rows) fr wt zp).map (fun r => (r.1, r.2.1)) = some p →
      p = (rows.map Prod.fst, rows.map Prod.snd) := by
  intro p h
  simp only [calc_fft] at h
  split at h
  · simp at h
  · split at h <;> simp only [Option.map_some', Option.some.injEq] at h <;> exact h.symm

/-- C4, witness: the amended theorem applied to the concrete scenario. -/
theorem calc_fft_time_outputs_full_witness :
    ([(0 : ℚ), 1, 2, 3, 4], [(0 : ℚ), 1, 0, -1, 0])
      = (sampleData.map Prod.fst, sampleData.map Prod.snd) :=
  calc_fft_time_outputs_full sampleData ((1 : ℚ) / 2, 3 / 2) ("bartlett") false
    ([(0 : ℚ), 1, 2, 3, 4], [(0 : ℚ), 1, 0, -1, 0]) (by with_unfolding_all decide)

/-! ### The zero-padding contract -/

theorem linearRamp_length (v e : ℚ) (w : ℕ) : (linearRamp v e w).length = w := by
  simp [linearRamp]

theorem linearRamp_arith (v dt : ℚ) (w : ℕ) :
    linearRamp v (v + (w : ℚ) * dt) w
      = (List.range w).map (fun i : ℕ => v + ((i : ℚ) + 1) * dt) := by
  rcases Nat.eq_zero_or_pos w with hw | hw
  · subst hw; rfl
  · unfold linearRamp
    apply List.map_congr_left
    intro i _
    have hw0 : (w : ℚ) ≠ 0 := Nat.cast_ne_zero.mpr (by omega)
    rw [add_sub_cancel_left]
    field_simp
    ring

theorem append_map_range_getLastD (xs : List ℚ) (f : ℕ → ℚ) (w : ℕ) (hw : w ≠ 0) :
    (xs ++ (List.range w).map f).getLastD 0 = f (w - 1) := by
  obtain ⟨p, rfl⟩ : ∃ p, w = p + 1 := ⟨w - 1, by omega⟩
  rw [List.getLastD_eq_getLast?,
    List.getLast?_append_of_ne_nil _ (by simp [List.range_succ]),
    List.range_succ, List.map_append,
    List.getLast?_append_of_ne_nil _ (by simp)]
  simp

/-- C6: for equal-length inputs with at least one sample (xs ascending),
zeropadding extends both sequences to the next power-of-two length
(exactly N when N is a power of two), keeps the first N entries, appends
zeros to ys, and appends to xs the arithmetic progression of step
dt = xs[1] - xs[0] (0 when N = 1) ending at xs[-1] + pad*dt. -/
theorem zeropadding_spec (xs ys : List ℚ) (N : ℕ) (hx : xs.length = N)
    (hy : ys.length = N) (hN : 1 ≤ N)
    (hasc : List.Pairwise (fun a b : ℚ => a ≤ b) xs) :
    ∀ xs2 ys2, zeropadding xs ys = some (xs2, ys2) →
      xs2.length = 2 ^ ceilLog2 N ∧ ys2.length = 2 ^ ceilLog2 N
      ∧ N ≤ 2 ^ ceilLog2 N
      ∧ (∀ m : ℕ, N ≤ 2 ^ m → 2 ^ ceilLog2 N ≤ 2 ^ m)
      ∧ (∀ m : ℕ, N = 2 ^ m → 2 ^ ceilLog2 N = N)
      ∧ xs2.take N = xs ∧ ys2.take N = ys
      ∧ ys2.drop N = List.replicate (2 ^ ceilLog2 N - N) 0
      ∧ xs2.drop N = (List.range (2 ^ ceilLog2 N - N)).map
          (fun i : ℕ => xs.getLastD 0 + ((i : ℚ) + 1)
            * (if 1 < N then xs.getD 1 0 - xs.getD 0 0 else 0))
      ∧ xs2.getLastD 0 = xs.getLastD 0 + ((2 ^ ceilLog2 N - N : ℕ) : ℚ)
          * (if 1 < N then xs.getD 1 0 - xs.getD 0 0 else 0) := by
  intro xs2 ys2 h
  subst hx
  have hne : xs ≠ [] := by
    intro hnil
    rw [hnil] at hN
    simp at hN
  rw [zeropadding, if_neg hne] at h
  simp only [Option.some.injEq, Prod.mk.injEq] at h
  obtain ⟨h1, h2⟩ := h
  subst h1
  subst h2
  obtain ⟨hle, hmin⟩ := ceilLog2_spec xs.length
  have hramp : linearRamp (xs.getLastD 0)
      (xs.getLastD 0 + ((2 ^ ceilLog2 xs.length - xs.length : ℕ) : ℚ)
        * (if 1 < xs.length then xs.getD 1 0 - xs.getD 0 0 else 0))
      (2 ^ ceilLog2 xs.length - xs.length)
      = (List.range (2 ^ ceilLog2 xs.length - xs.length)).map
        (fun i : ℕ => xs.getLastD 0 + ((i : ℚ) + 1)
          * (if 1 < xs.length then xs.getD 1 0 - xs.getD 0 0 else 0)) :=
    linearRamp_arith _ _ _
  refine ⟨?_, ?_, hle, ?_, ?_, ?_, ?_, ?_, ?_, ?_⟩
  · simp only [List.length_append, linearRamp_length]
    omega
  · simp only [List.length_append, List.length_replicate]
    omega
  · exact fun m hm => Nat.pow_le_pow_right (by norm_num) (hmin m hm)
  · intro m hm
    have h2m : 2 ^ ceilLog2 xs.length ≤ 2 ^ m :=
      Nat.pow_le_pow_right (by norm_num) (hmin m (le_of_eq hm))
    omega
  · exact List.take_left' rfl
  · exact List.take_left' hy
  · exact List.drop_left' hy
  · rw [List.drop_left' rfl, hramp]
  · rcases Nat.eq_zero_or_pos (2 ^ ceilLog2 xs.length - xs.length) with hpad | hpad
    · rw [hramp, hpad]
      simp
    · rw [hramp, append_map_range_getLastD _ _ _ (by omega)]
      have hcast : ((2 ^ ceilLog2 xs.length - xs.length - 1 : ℕ) : ℚ) + 1
          = ((2 ^ ceilLog2 xs.length - xs.length : ℕ) : ℚ) := by
        push_cast [Nat.cast_sub (by omega : 1 ≤ 2 ^ ceilLog2 xs.length - xs.length)]
        ring
      rw [hcast]

/-- C6, witness: zeropadding [0,1,2] [5,6,7] pads to [0,1,2,3] and
[5,6,7,0]. -/
theorem zeropadding_spec_witness :
    ([(0 : ℚ), 1, 2, 3].length = 2 ^ ceilLog2 3 ∧ [(5 : ℚ), 6, 7, 0].length = 2 ^ ceilLog2 3
      ∧ 3 ≤ 2 ^ ceilLog2 3
      ∧ (∀ m : ℕ, 3 ≤ 2 ^ m → 2 ^ ceilLog2 3 ≤ 2 ^ m)
      ∧ (∀ m : ℕ, 3 = 2 ^ m → 2 ^ ceilLog2 3 = 3)
      ∧ [(0 : ℚ), 1, 2, 3].take 3 = [(0 : ℚ), 1, 2]
      ∧ [(5 : ℚ), 6, 7, 0].take 3 = [(5 : ℚ), 6, 7]
      ∧ [(5 : ℚ), 6, 7, 0].drop 3 = List.replicate (2 ^ ceilLog2 3 - 3) 0
      ∧ [(0 : ℚ), 1, 2, 3].drop 3 = (List.range (2 ^ ceilLog2 3 - 3)).map
          (fun i : ℕ => [(0 : ℚ), 1, 2].getLastD 0 + ((i : ℚ) + 1)
            * (if 1 < 3 then [(0 : ℚ), 1, 2].getD 1 0 - [(0 : ℚ), 1, 2].getD 0 0 else 0))
      ∧ [(0 : ℚ), 1, 2, 3].getLastD 0 = [(0 : ℚ), 1, 2].getLastD 0
          + ((2 ^ ceilLog2 3 - 3 : ℕ) : ℚ)
            * (if 1 < 3 then [(0 : ℚ), 1, 2].getD 1 0 - [(0 : ℚ), 1, 2].getD 0 0 else 0)) :=
  zeropadding_spec [(0 : ℚ), 1, 2] [(5 : ℚ), 6, 7] 3 rfl rfl (by norm_num)
    (by with_unfolding_all decide) [(0 : ℚ), 1, 2, 3] [(5 : ℚ), 6, 7, 0]
    (by with_unfolding_all decide)

/-! ### The range filter -/

/-- C7: the boolean mask of line 61 selects exactly those rows whose time
lies strictly between the selection bounds, in order, on both the time and
the amplitude column; when min ≥ max (and in particular on an empty
series) the filtered columns are empty. -/
theorem range_filter_spec (rows : List (ℚ × ℚ)) (fft_min fft_max : ℚ) :
    applyMask (fftMask (rows.map Prod.fst) fft_min fft_max) (rows.map Prod.fst)
        = (rows.filter (fun r => decide (fft_min < r.1) && decide (r.1 < fft_max))).map Prod.fst
    ∧ applyMask (fftMask (rows.map Prod.fst) fft_min fft_max) (rows.map Prod.snd)
        = (rows.filter (fun r => decide (fft_min < r.1) && decide (r.1 < fft_max))).map Prod.snd
    ∧ (fft_max ≤ fft_min →
        applyMask (fftMask (rows.map Prod.fst) fft_min fft_max) (rows.map Prod.fst) = []
        ∧ applyMask (fftMask (rows.map Prod.fst) fft_min fft_max) (rows.map Prod.snd) = []) := by
  have hmask : fftMask (rows.map Prod.fst) fft_min fft_max
      = rows.map (fun r => (fun t => decide (fft_min < t) && decide (t < fft_max)) r.1) := by
    rw [fftMask, List.map_map]
    rfl
  have hfalse : fft_max ≤ fft_min →
      ∀ b ∈ fftMask (rows.map Prod.fst) fft_min fft_max, b = false := by
    intro hle b hb
    simp only [fftMask, List.map_map, List.mem_map, Function.comp] at hb
    obtain ⟨r, -, rfl⟩ := hb
    by_cases h1 : fft_min < r.1
    · have h2 : ¬ r.1 < fft_max :=
        fun h2 => absurd (lt_trans (lt_of_lt_of_le h2 hle) h1) (lt_irrefl r.1)
      simp [h2]
    · simp [h1]
  refine ⟨?_, ?_, fun hle =>
    ⟨applyMask_all_false _ _ (hfalse hle), applyMask_all_false _ _ (hfalse hle)⟩⟩
  · rw [hmask]
    exact applyMask_map (fun t => decide (fft_min < t) && decide (t < fft_max))
      Prod.fst Prod.fst rows
  · rw [hmask]
    exact applyMask_map (fun t => decide (fft_min < t) && decide (t < fft_max))
      Prod.fst Prod.snd rows

/-- C7, witness: the degenerate selection (20, 10) filters the scenario
dataset to nothing. -/
theorem range_filter_spec_witness :
    applyMask (fftMask (sampleData.map Prod.fst) 20 10) (sampleData.map Prod.fst) = []
    ∧ applyMask (fftMask (sampleData.map Prod.fst) 20 10) (sampleData.map Prod.snd) = [] :=
  (range_filter_spec sampleData 20 10).2.2 (by norm_num)

/-! ### The windowing contract -/

theorem hanningW_length (M : ℕ) : (hanningW M).length = M := by
  unfold hanningW
  split
  · rename_i h; simp [h]
  · simp

theorem blackmanW_length (M : ℕ) : (blackmanW M).length = M := by
  unfold blackmanW
  split
  · rename_i h; simp [h]
  · simp

theorem hammingW_length (M : ℕ) : (hammingW M).length = M := by
  unfold hammingW
  split
  · rename_i h; simp [h]
  · simp

theorem bartlettW_length (M : ℕ) : (bartlettW M).length = M := by
  unfold bartlettW
  split
  · rename_i h; simp [h]
  · simp

theorem hanningW_nonneg (M : ℕ) : ∀ x ∈ hanningW M, 0 ≤ x := by
  intro x hx
  unfold hanningW at hx
  split at hx
  · simp only [List.mem_singleton] at hx
    subst hx; norm_num
  · simp only [List.mem_map] at hx
    obtain ⟨k, -, rfl⟩ := hx
    have h1 := Real.neg_one_le_cos (Real.pi * (2 * (k : ℝ) - ((M : ℝ) - 1)) / ((M : ℝ) - 1))
    linarith

theorem hammingW_nonneg (M : ℕ) : ∀ x ∈ hammingW M, 0 ≤ x := by
  intro x hx
  unfold hammingW at hx
  split at hx
  · simp only [List.mem_singleton] at hx
    subst hx; norm_num
  · simp only [List.mem_map] at hx
    obtain ⟨k, -, rfl⟩ := hx
    have h1 := Real.neg_one_le_cos (Real.pi * (2 * (k : ℝ) - ((M : ℝ) - 1)) / ((M : ℝ) - 1))
    linarith

theorem blackmanW_nonneg (M : ℕ) : ∀ x ∈ blackmanW M, 0 ≤ x := by
  intro x hx
  unfold blackmanW at hx
  split at hx
  · simp only [List.mem_singleton] at hx
    subst hx; norm_num
  · simp only [List.mem_map] at hx
    obtain ⟨k, -, rfl⟩ := hx
    rw [Real.cos_two_mul]
    have h1 := Real.neg_one_le_cos (Real.pi * (2 * (k : ℝ) - ((M : ℝ) - 1)) / ((M : ℝ) - 1))
    have h2 := Real.cos_le_one (Real.pi * (2 * (k : ℝ) - ((M : ℝ) - 1)) / ((M : ℝ) - 1))
    nlinarith [sq_nonneg (Real.cos (Real.pi * (2 * (k : ℝ) - ((M : ℝ) - 1)) / ((M : ℝ) - 1)) + 1)]

theorem bartlettW_nonneg (M : ℕ) : ∀ x ∈ bartlettW M, 0 ≤ x := by
  intro x hx
  unfold bartlettW at hx
  split at hx
  · simp only [List.mem_singleton] at hx
    subst hx; norm_num
  · rename_i hM1
    simp only [List.mem_map, List.mem_range] at hx
    obtain ⟨k, hk, rfl⟩ := hx
    have hM2 : 2 ≤ M := by omega
    have hMR : (0 : ℝ) < (M : ℝ) - 1 := by
      have : (2 : ℝ) ≤ (M : ℝ) := by exact_mod_cast hM2
      linarith
    split
    · rename_i hn
      have hlow : -((M : ℤ) - 1) ≤ 2 * (k : ℤ) - ((M : ℤ) - 1) := by omega
      have hlowR : -((M : ℝ) - 1) ≤ ((2 * (k : ℤ) - ((M : ℤ) - 1) : ℤ) : ℝ) := by
        exact_mod_cast hlow
      have hdiv : -1 ≤ ((2 * (k : ℤ) - ((M : ℤ) - 1) : ℤ) : ℝ) / ((M : ℝ) - 1) := by
        rw [neg_le, ← neg_div]
        rw [div_le_iff hMR]
        linarith
      linarith
    · rename_i hn
      have hup : 2 * (k : ℤ) - ((M : ℤ) - 1) ≤ (M : ℤ) - 1 := by omega
      have hupR : ((2 * (k : ℤ) - ((M : ℤ) - 1) : ℤ) : ℝ) ≤ (M : ℝ) - 1 := by
        exact_mod_cast hup
      have hdiv : ((2 * (k : ℤ) - ((M : ℤ) - 1) : ℤ) : ℝ) / ((M : ℝ) - 1) ≤ 1 :=
        (div_le_one hMR).mpr hupR
      linarith

/-- C8: for every window kind and every sample list, calc_window returns
exactly as many non-negative weights as there are samples; for boxcar and
any unrecognised name it returns all ones. -/
theorem calc_window_spec (windowtype : String) (ys : List ℚ) :
    (calc_window windowtype ys).length = ys.length
    ∧ (∀ w ∈ calc_window windowtype ys, 0 ≤ w)
    ∧ ((windowtype = "boxcar" ∨
        (windowtype ≠ "hanning" ∧ windowtype ≠ "blackman" ∧ windowtype ≠ "hamming"
          ∧ windowtype ≠ "bartlett")) →
        calc_window windowtype ys = List.replicate ys.length 1) := by
  by_cases h1 : windowtype = "hanning"
  · subst h1
    refine ⟨by simp [calc_window, hanningW_length], ?_, ?_⟩
    · simpa [calc_window] using hanningW_nonneg ys.length
    · rintro (hc | hc)
      · exact absurd hc (by decide)
      · exact absurd rfl hc.1
  · by_cases h2 : windowtype = "blackman"
    · subst h2
      refine ⟨by simp [calc_window, blackmanW_length], ?_, ?_⟩
      · simpa [calc_window] using blackmanW_nonneg ys.length
      · rintro (hc | hc)
        · exact absurd hc (by decide)
        · exact absurd rfl hc.2.1
    · by_cases h3 : windowtype = "hamming"
      · subst h3
        refine ⟨by simp [calc_window, hammingW_length], ?_, ?_⟩
        · simpa [calc_window] using hammingW_nonneg ys.length
        · rintro (hc | hc)
          · exact absurd hc (by decide)
          · exact absurd rfl hc.2.2.1
      · by_cases h4 : windowtype = "bartlett"
        · subst h4
          refine ⟨by simp [calc_window, bartlettW_length], ?_, ?_⟩
          · simpa [calc_window] using bartlettW_nonneg ys.length
          · rintro (hc | hc)
            · exact absurd hc (by decide)
            · exact absurd rfl hc.2.2.2
        · have hw : calc_window windowtype ys = List.replicate ys.length 1 := by
            simp [calc_window, h1, h2, h3, h4]
          refine ⟨by simp [hw], ?_, fun _ => hw⟩
          intro w hwmem
          rw [hw] at hwmem
          have := List.eq_of_mem_replicate hwmem
          subst this
          norm_num

/-- C8, witness: the boxcar window on a two-sample list. -/
theorem calc_window_spec_witness :
    calc_window ("boxcar") [(0 : ℚ), 1] = List.replicate 2 1 := by
  have h := (calc_window_spec ("boxcar") [(0 : ℚ), 1]).2.2 (Or.inl rfl)
  simpa using h

/-! ### Persistence: splitext and the save collaborator -/

/-- Python str.rfind over a character list: the greatest index holding the
character, or -1 when it does not occur. -/
def rfind (c : Char) (l : List Char) : ℤ :=
  match l.reverse.findIdx? (fun x => x = c) with
  | none => -1
  | some i => (l.length : ℤ) - 1 - (i : ℤ)

/-- `os.path.splitext` (posix): split before the last dot of the final
path component, unless every character of that component in front of the
dot is itself a dot (then nothing is split off). -/
def splitext (s : String) : String × String :=
  let p := s.data
  let sepIndex := rfind '/' p
  let dotIndex := rfind '.' p
  if sepIndex < dotIndex
      ∧ ((List.range p.length).any (fun i =>
          decide (sepIndex < (i : ℤ)) && decide ((i : ℤ) < dotIndex)
            && decide (p.getD i '.' ≠ '.'))) = true then
    (String.mk (p.take dotIndex.toNat), String.mk (p.drop dotIndex.toNat))
  else (s, "")

/-- A file written by np.savetxt: the target path, the three header lines
of the f-string header, and the two written columns. -/
structure SavedFile where
  path : String
  headerLines : List String
  rows : List ℚ × List ℝ

/-- Python `str` of a bool: the literal "True" or "False". -/
def pyBool (b : Bool) : String := if b then "True" else "False"

/-- The f-string rendering "(min, max)" of the selection-range pair. -/
def pyRange (r : ℚ × ℚ) : String := "(" ++ toString r.1 ++ ", " ++ toString r.2 ++ ")"

/-- `save_data(data, filename, fft_range, window, zeropad)` from TSTS.py
(lines 212-216): divides the first column of the passed spectrum array by
1E6 IN PLACE, then writes the mutated array, with a header recording the
selection range, the window name and the zeropad flag, to the path made by
inserting "FFT" between the stem and the extension of the current
filename.  The mutated array is returned alongside the written file
because the caller's spec_data aliases it. -/
def save_data (data : List ℚ × List ℝ) (filename : String) (fft_range : ℚ × ℚ)
    (window : String) (zeropad : Bool) : SavedFile × (List ℚ × List ℝ) :=
  let mutated := (data.1.map (fun v => v / 1000000), data.2)
  let fe := splitext filename
  ({ path := fe.1 ++ "FFT" ++ fe.2,
     headerLines := ["Range of window: " ++ pyRange fft_range,
                     "Windowfunction: " ++ window,
                     "Zeropadding: " ++ pyBool zeropad],
     rows := mutated }, mutated)

theorem splitext_append (s : String) : (splitext s).1 ++ (splitext s).2 = s := by
  simp only [splitext]
  split
  · show String.mk _ ++ String.mk _ = s
    have hmk : ∀ a b : List Char, String.mk a ++ String.mk b = String.mk (a ++ b) :=
      fun a b => rfl
    rw [hmk, List.take_append_drop]
  · exact String.append_empty s

theorem splitext_path_ne (filename : String) :
    (splitext filename).1 ++ "FFT" ++ (splitext filename).2 ≠ filename := by
  intro h
  have hdata := congrArg String.data h
  rw [String.data_append, String.data_append] at hdata
  have hlen := congrArg List.length hdata
  simp only [List.length_append, List.length_cons, List.length_nil] at hlen
  have hrec := congrArg String.data (splitext_append filename)
  rw [String.data_append] at hrec
  have hlen2 := congrArg List.length hrec
  simp only [List.length_append] at hlen2
  omega

/-! ### The interactive session state machine -/

/-- The session state of fft_timesignal: the module globals (data,
filename, fft_range, spec_data) together with the widget-held settings
(window radio choice, zeropad and rescale check buttons). -/
structure TSState where
  data : Option (List (ℚ × ℚ))
  filename : String
  fft_range : ℚ × ℚ
  window : String
  zeropad : Bool
  rescale : Bool
  spec_data : List ℚ × List ℝ

/-- update_plot (TSTS.py lines 140-158): recompute the spectrum with the
current data, range and settings and replace spec_data by the new columns;
`none` models an exception escaping from calc_fft.  (The redraw and axis
rescaling calls touch only the figure, never the session state.) -/
noncomputable def update_plot (s : TSState) : Option TSState :=
  match calc_fft s.data s.fft_range s.window s.zeropad with
  | none => none
  | some r => some { s with spec_data := (r.2.2.1, r.2.2.2) }

/-- onselect (lines 107-110): a drag selection replaces fft_range and
recomputes. -/
noncomputable def onselect (xmin xmax : ℚ) (s : TSState) : Option TSState :=
  update_plot { s with fft_range := (xmin, xmax) }

/-- press "enter" (lines 115-116): invoke save_data on the current
spectrum, filename, range and settings.  The in-place array division
inside save_data mutates the session's spec_data, which aliases the passed
array. -/
def press_enter (s : TSState) : SavedFile × TSState :=
  let r := save_data s.spec_data s.filename s.fft_range s.window s.zeropad
  (r.1, { s with spec_data := r.2 })

/-- press "ctrl+o" (lines 136-138): replace the dataset and filename with
a newly opened file and recompute.  fft_range is not touched. -/
noncomputable def press_ctrl_o (newData : Option (List (ℚ × ℚ))) (newFilename : String)
    (s : TSState) : Option TSState :=
  update_plot { s with data := newData, filename := newFilename }

/-- Session construction (lines 101-105 and 160-204): fft_range starts as
(0, 0), the initial file is loaded, the widgets start at window "hanning",
zeropad off and rescale on, and update_plot runs once. -/
noncomputable def initialState (d : Option (List (ℚ × ℚ))) (fn : String) : Option TSState :=
  update_plot { data := d, filename := fn, fft_range := (0, 0), window := "hanning",
                zeropad := false, rescale := true, spec_data := ([], []) }

/-- C9: the written frequency column holds the passed spectrum's original
frequencies divided by 1,000,000, the magnitude column is unchanged, and
the header records the selection range, the window-function name and the
Python boolean literal ("True"/"False") of the zeropad flag. -/
theorem save_format_spec (spec : List ℚ × List ℝ) (filename : String) (fft_range : ℚ × ℚ)
    (window : String) (zeropad : Bool) :
    (save_data spec filename fft_range window zeropad).1.rows.1
        = spec.1.map (fun v => v / 1000000)
    ∧ (save_data spec filename fft_range window zeropad).1.rows.2 = spec.2
    ∧ (save_data spec filename fft_range window zeropad).1.headerLines
        = ["Range of window: " ++ pyRange fft_range,
           "Windowfunction: " ++ window,
           "Zeropadding: " ++ pyBool zeropad]
    ∧ pyBool true = "True" ∧ pyBool false = "False" :=
  ⟨rfl, rfl, rfl, rfl, rfl⟩

/-- C10: the output path of a save inserts "FFT" between the stem and the
extension of the current filename (the two splitext parts recompose to the
filename), and in particular the path differs from the current filename,
so a save never overwrites the loaded file. -/
theorem save_path_spec (spec : List ℚ × List ℝ) (filename : String) (fft_range : ℚ × ℚ)
    (window : String) (zeropad : Bool) :
    (save_data spec filename fft_range window zeropad).1.path
        = (splitext filename).1 ++ "FFT" ++ (splitext filename).2
    ∧ (splitext filename).1 ++ (splitext filename).2 = filename
    ∧ (save_data spec filename fft_range window zeropad).1.path ≠ filename :=
  ⟨rfl, splitext_append filename, splitext_path_ne filename⟩

/-- The path insertion on the concrete name of the claim: "data.csv"
becomes "dataFFT.csv". -/
theorem splitext_example :
    (save_data ([], []) ("data.csv") ((0 : ℚ), 0) ("hanning") true).1.path
      = ("dataFFT.csv") := by
  with_unfolding_all decide

/-- The session state reached by loading the scenario dataset and
selecting (-1, 5): the stored spectrum frequencies are [1/2, 1/4] (the
spectrum magnitudes play no role in the state-change claims and are left
empty here). -/
noncomputable def sessionAfterSelect : TSState :=
  ⟨some sampleData, ("data.csv"), (-1, 5), ("hanning"), false, true,
    ([(1 : ℚ) / 2, 1 / 4], [])⟩

/-- C3: pressing enter (Commit/Save) DOES change the session state: the
in-place division of the frequency column inside save_data mutates the
stored spectrum, leaving the frequencies divided by 1e6 (so a second save
divides them again).  Dataset, filename, selection range and settings are
unchanged, but the stored spectrum is not. -/
theorem save_event_mutates_state :
    (press_enter sessionAfterSelect).2.spec_data.1 = [(1 : ℚ) / 2000000, 1 / 4000000]
    ∧ sessionAfterSelect.spec_data.1 = [(1 : ℚ) / 2, 1 / 4]
    ∧ ([(1 : ℚ) / 2000000, 1 / 4000000] : List ℚ) ≠ [(1 : ℚ) / 2, 1 / 4]
    ∧ (press_enter sessionAfterSelect).2.data = sessionAfterSelect.data
    ∧ (press_enter sessionAfterSelect).2.filename = sessionAfterSelect.filename
    ∧ (press_enter sessionAfterSelect).2.fft_range = sessionAfterSelect.fft_range
    ∧ (press_enter sessionAfterSelect).2.window = sessionAfterSelect.window
    ∧ (press_enter sessionAfterSelect).2.zeropad = sessionAfterSelect.zeropad := by
  refine ⟨?_, rfl, ?_, rfl, rfl, rfl, rfl, rfl⟩
  · norm_num [press_enter, save_data, sessionAfterSelect]
  · intro h
    simp only [List.cons.injEq, and_true] at h
    exact absurd h.1 (by norm_num)

/-- C5, counterexample: an open-file event (ctrl+o) in a session whose
current selection is (-1, 5) does NOT reset the selection range to (0, 0),
and the spectrum recomputed immediately after the load is non-empty: the
range is still (-1, 5) and the recomputed spectrum frequencies are
[1/2, 1/4]. -/
theorem open_file_keeps_selection :
    (press_ctrl_o (some sampleData) ("b.csv") sessionAfterSelect).map
        (fun s => (s.fft_range, s.spec_data.1))
      = some (((-1 : ℚ), (5 : ℚ)), [(1 : ℚ) / 2, 1 / 4])
    ∧ (((-1 : ℚ), (5 : ℚ)) : ℚ × ℚ) ≠ ((0 : ℚ), (0 : ℚ))
    ∧ ([(1 : ℚ) / 2, 1 / 4] : List ℚ) ≠ ([] : List ℚ) := by
  refine ⟨?_, ?_, ?_⟩ <;> with_unfolding_all decide

theorem fftMask_degenerate (times : List ℚ) : ∀ b ∈ fftMask times 0 0, b = false := by
  intro b hb
  simp only [fftMask, List.mem_map] at hb
  obtain ⟨t, -, rfl⟩ := hb
  by_cases h : (0 : ℚ) < t
  · have h2 : ¬ t < 0 := not_lt.mpr h.le
    simp [h2]
  · simp [h]

/-- C5, amended: only the initial session construction has the selection
range at (0, 0), so the first computed spectrum is empty; a subsequent
open-file event keeps the current selection range unchanged (while
replacing dataset and filename) and recomputes with it. -/
theorem load_selection_behavior :
    (∀ d fn s, initialState d fn = some s →
        s.fft_range = (0, 0) ∧ s.spec_data.1 = [] ∧ s.spec_data.2 = [])
    ∧ (∀ nd nfn s s2, press_ctrl_o nd nfn s = some s2 →
        s2.fft_range = s.fft_range ∧ s2.data = nd ∧ s2.filename = nfn) := by
  constructor
  · intro d fn s h
    unfold initialState update_plot at h
    cases d with
    | none =>
      simp only [Option.some.injEq] at h
      cases h
      exact ⟨rfl, rfl, rfl⟩
    | some rows =>
      rw [calc_fft_filtered_empty_eq rows ((0 : ℚ), 0) ("hanning")
        (applyMask_all_false _ _ (fftMask_degenerate (rows.map Prod.fst)))] at h
      simp only [Option.some.injEq] at h
      cases h
      exact ⟨rfl, rfl, rfl⟩
  · intro nd nfn s s2 h
    unfold press_ctrl_o update_plot at h
    cases hc : calc_fft nd s.fft_range s.window s.zeropad with
    | none => rw [hc] at h; exact absurd h (by simp)
    | some r =>
      rw [hc] at h
      simp only [Option.some.injEq] at h
      cases h
      exact ⟨rfl, rfl, rfl⟩

/-- C5, witness: the amended theorem applied to the initial load of the
scenario dataset and to a subsequent open-file event on it. -/
theorem load_selection_behavior_witness :
    ((⟨some sampleData, ("f.csv"), (0, 0), ("hanning"), false, true,
        ([], [])⟩ : TSState).fft_range = (0, 0)
      ∧ (⟨some sampleData, ("f.csv"), (0, 0), ("hanning"), false, true,
          ([], [])⟩ : TSState).spec_data.1 = []
      ∧ (⟨some sampleData, ("f.csv"), (0, 0), ("hanning"), false, true,
          ([], [])⟩ : TSState).spec_data.2 = []) :=
  load_selection_behavior.1 (some sampleData) ("f.csv")
    ⟨some sampleData, ("f.csv"), (0, 0), ("hanning"), false, true, ([], [])⟩
    (by with_unfolding_all rfl)

end TSTS
